import Mathlib

/-!
Verification of the realroi-calculator financial-math core.

The calculation engine of the repository (src/src/App.jsx, `const realroi = {...}`,
together with `npv`/`irrBisection` from src/src/realroi/RealROICalculator.jsx and the
result pipeline of `calculateResults` in App.jsx / App.tsx) is embedded shallowly
over exact rationals: every JavaScript number becomes a `ℚ`, arrays become `List ℚ`,
`undefined`-producing out-of-range indexing is modelled with `List.getD` defaults,
and the mutable loops become structural recursions carrying the loop state.
-/

namespace RealROI

/-- A row of the amortization schedule: `{ month, payment, interest, principal, balance }`
as pushed by `realroi.amortizationSchedule` in App.jsx. -/
structure AmortRow where
  month : ℕ
  payment : ℚ
  interest : ℚ
  principal : ℚ
  balance : ℚ
deriving DecidableEq, Repr

/-- The all-zero row, used as the default value when modelling JavaScript
out-of-range indexing (`rows[i]?.balance ?? 0`). -/
def zeroRow : AmortRow :=
  ⟨0, 0, 0, 0, 0⟩

/-- Result of `realroi.amortizationSchedule`: `{ paymentMonthly, rows }`. -/
structure AmortResult where
  paymentMonthly : ℚ
  rows : List AmortRow
deriving DecidableEq, Repr

/-- The monthly rate used by `amortizationSchedule`:
`let r = rateAPR / 12; if (r <= 0) r = 0.0000001;`. -/
def monthlyRate (rateAPR : ℚ) : ℚ :=
  let r := rateAPR / 12
  if r ≤ 0 then 1 / 10000000 else r

/-- The schedule-building loop of `amortizationSchedule`:
`for (let i = 1; i <= n; i++) { interest = bal*r; principal = m - interest;
bal -= principal; rows.push({month: i, payment: m, interest, principal,
balance: Math.max(0, bal)}); }`.  `fuel` is the number of remaining iterations,
`i` the current month index, `bal` the running (unfloored) balance. -/
def amortRows (m r : ℚ) : ℚ → ℕ → ℕ → List AmortRow
  | _, _, 0 => []
  | bal, i, fuel + 1 =>
    let interest := bal * r
    let principal := m - interest
    let bal2 := bal - principal
    ⟨i, m, interest, principal, max 0 bal2⟩ :: amortRows m r bal2 (i + 1) fuel

/-- The running (unfloored) balance after `k` iterations of the schedule loop:
`bal -= principal` is `bal := bal * (1 + r) - m`. -/
def balAfter (m r bal : ℚ) : ℕ → ℚ
  | 0 => bal
  | k + 1 => balAfter m r bal k * (1 + r) - m

/-- Embeds `realroi.amortizationSchedule(loan, rateAPR, termYears)` from App.jsx:
`n = termYears*12`, clamped monthly rate, `m = loan*r / (1 - (1+r)^(-n))`,
then the monthly rows. -/
def amortizationSchedule (loan rateAPR : ℚ) (termYears : ℕ) : AmortResult :=
  let n := termYears * 12
  let r := monthlyRate rateAPR
  let m := (loan * r) / (1 - (1 + r) ^ (-(n : ℤ)))
  ⟨m, amortRows m r loan 1 n⟩

/-- Result of `realroi.summarizeFinancials`: `{ principalPaid, interestPaid, balance }`. -/
structure FinancialSummary where
  principalPaid : ℚ
  interestPaid : ℚ
  balance : ℚ
deriving DecidableEq, Repr

/-- Embeds `realroi.summarizeFinancials(rows, years)` from App.jsx: sums principal and
interest over the first `min(rows.length, years*12)` months and reports the
balance at the end of that window; a zero-month window returns zero sums and the
first row's balance (or 0 for an empty schedule). -/
def summarizeFinancials (rows : List AmortRow) (years : ℕ) : FinancialSummary :=
  let months := min rows.length (years * 12)
  if months = 0 then
    ⟨0, 0, if 0 < rows.length then (rows.getD 0 zeroRow).balance else 0⟩
  else
    ⟨((rows.take months).map AmortRow.principal).sum,
     ((rows.take months).map AmortRow.interest).sum,
     (rows.getD (months - 1) zeroRow).balance⟩

/-- Embeds `realroi.toReal(nominal, cpiBase, cpiNow)` from App.jsx:
`nominal * (cpiBase / cpiNow)`. -/
def toReal (nominal cpiBase cpiNow : ℚ) : ℚ :=
  nominal * (cpiBase / cpiNow)

/-- Embeds `npv(rate, cashflows)` from RealROICalculator.jsx:
`cashflows.reduce((acc, cf, t) => acc + cf / Math.pow(1 + rate, t), 0)`. -/
def npv (rate : ℚ) (cashflows : List ℚ) : ℚ :=
  (cashflows.enum.map (fun p => p.2 / (1 + rate) ^ p.1)).sum

/-- The bisection loop of `irrBisection` from RealROICalculator.jsx.  Each
iteration takes the midpoint, returns it when `|npv(mid)| < tol`, and otherwise
shrinks the bracket keeping the sign change; running out of iterations yields
`none` (the JS `return null` after the `for` loop).  `fHigh` is carried because
the source updates it, although no decision reads it. -/
def irrBisectionLoop (cashflows : List ℚ) (tol : ℚ) :
    ℕ → ℚ → ℚ → ℚ → ℚ → Option ℚ
  | 0, _, _, _, _ => none
  | fuel + 1, low, high, fLow, fHigh =>
    let mid := (low + high) / 2
    let fMid := npv mid cashflows
    if |fMid| < tol then some mid
    else if fLow * fMid < 0 then irrBisectionLoop cashflows tol fuel low mid fLow fMid
    else irrBisectionLoop cashflows tol fuel mid high fMid fHigh

/-- Embeds `irrBisection(cashflows, low, high, tol, maxIter)` from RealROICalculator.jsx:
returns `none` (`null`) when the bracket endpoints' NPVs have the same sign
(`fLow * fHigh > 0`), and otherwise bisects. -/
def irrBisection (cashflows : List ℚ) (low high tol : ℚ) (maxIter : ℕ) : Option ℚ :=
  let fLow := npv low cashflows
  let fHigh := npv high cashflows
  if fLow * fHigh > 0 then none
  else irrBisectionLoop cashflows tol maxIter low high fLow fHigh

/-- The curve-extension loop of `realroi.realEquityCurve`: starting from the
previous curve value `prev` at absolute period `t`, each return entry appends
`prev * g` with `g = ((1 + (returns[t] + dividends[t])) * (1 - feeMo)) / (1 + cpiGrowth[t])`. -/
def realEquityCurveAux (feeMo : ℚ) (dividends cpiGrowth : List ℚ) :
    ℚ → ℕ → List ℚ → List ℚ
  | _, _, [] => []
  | prev, t, ret :: rest =>
    let totalReturn := ret + dividends.getD t 0
    let g := ((1 + totalReturn) * (1 - feeMo)) / (1 + cpiGrowth.getD t 0)
    (prev * g) :: realEquityCurveAux feeMo dividends cpiGrowth (prev * g) (t + 1) rest

/-- Embeds `realroi.realEquityCurve(returns, dividends, cpiGrowth, feeBpsPerYear)` from
App.jsx: `feeMo = (feeBpsPerYear/10000)/12`, `curve = [1]`, then one growth step
per entry of `returns`. -/
def realEquityCurve (returns dividends cpiGrowth : List ℚ) (feeBpsPerYear : ℚ) : List ℚ :=
  let feeMo := (feeBpsPerYear / 10000) / 12
  1 :: realEquityCurveAux feeMo dividends cpiGrowth 1 0 returns

/-- The accumulation loop of `realroi.terminalWealthFromCashFlows`:
`for (t...) { if (t >= curve.length) continue; wealth += cashFlowsReal[t] * curve[T]/curve[t]; }`,
with `t` the absolute index of the current cash-flow entry. -/
def twAux (curve : List ℚ) (T : ℕ) : List ℚ → ℕ → ℚ
  | [], _ => 0
  | cf :: rest, t =>
    (if curve.length ≤ t then 0 else cf * (curve.getD T 0 / curve.getD t 0)) +
      twAux curve T rest (t + 1)

/-- Embeds `realroi.terminalWealthFromCashFlows(curve, cashFlowsReal)` from App.jsx:
`T = curve.length - 1`; an empty curve returns 0, otherwise each cash flow in
range is grown by `curve[T]/curve[t]` and summed. -/
def terminalWealthFromCashFlows (curve cashFlowsReal : List ℚ) : ℚ :=
  if curve.length = 0 then 0
  else twAux curve (curve.length - 1) cashFlowsReal 0

/-- The `totalRealROI` stage of `calculateResults` in App.jsx (the ledger loop's
`cumulativeCashFlow += nominalAnnualCashFlow` together with
`totalNominalROI = appreciation + principalPaid + cumulativeNominalCashFlow + totalTaxSavings;
totalRealROI = realroi.toReal(totalNominalROI, cpiBase, cpiTimelineEnd);`):
the nominal components are summed first and the total is deflated once with the
endpoint CPI. -/
def totalRealROIJsx (appreciation principalPaid : ℚ) (nominalYearlyCashFlows : List ℚ)
    (totalTaxSavings cpiBase cpiTimelineEnd : ℚ) : ℚ :=
  toReal (appreciation + principalPaid + nominalYearlyCashFlows.sum + totalTaxSavings)
    cpiBase cpiTimelineEnd

/-- The per-month loop of
`monthlyRealCashFlows = monthlyCashFlows.map((cf, i) => realroi.toReal(cf, cpiBase, cpiSeries[i] || cpiSeries.slice(-1)[0]))`
in App.jsx: `t0` is the absolute index of the current entry; the JS falsy
fallback (`undefined` or `0`) selects the last CPI entry. -/
def monthlyRealCashFlowsAux (cpiSeries : List ℚ) (cpiBase : ℚ) : List ℚ → ℕ → List ℚ
  | [], _ => []
  | cf :: rest, t0 =>
    toReal cf cpiBase
        (if cpiSeries.getD t0 0 = 0 then cpiSeries.getD (cpiSeries.length - 1) 0
         else cpiSeries.getD t0 0) ::
      monthlyRealCashFlowsAux cpiSeries cpiBase rest (t0 + 1)

/-- The deflated monthly cash-flow series fed to `realroi.irr` in App.jsx. -/
def monthlyRealCashFlows (monthlyCashFlows cpiSeries : List ℚ) (cpiBase : ℚ) : List ℚ :=
  monthlyRealCashFlowsAux cpiSeries cpiBase monthlyCashFlows 0

/-- The `realCashFlow` accumulation of `calculateResults` in App.tsx:
`for (y...) { cpiYearEnd = cpiSeries[(y+1)*12 - 1] || cpiTimelineEnd;
realCashFlow += (ledger[y]?.nominalCashFlow || 0) * (cpiBase / cpiYearEnd); }`. -/
def realCashFlowTsx (ledgerCashFlows cpiSeries : List ℚ) (cpiBase cpiTimelineEnd : ℚ)
    (timelineYears : ℕ) : ℚ :=
  (List.range timelineYears).foldl (fun acc y =>
    acc + ledgerCashFlows.getD y 0 *
      (cpiBase /
        (if cpiSeries.getD ((y + 1) * 12 - 1) 0 = 0 then cpiTimelineEnd
         else cpiSeries.getD ((y + 1) * 12 - 1) 0))) 0

/-- Per-period deflation in the spec's words: a list of (nominal flow, CPI of
its period) pairs, each flow deflated to the base period via `toReal` before
being summed.  Spec-side definition, written for comparison with the pipeline's
`totalRealROIJsx`. -/
def perPeriodRealSum (flows : List (ℚ × ℚ)) (cpiBase : ℚ) : ℚ :=
  (flows.map (fun p => toReal p.1 cpiBase p.2)).sum

end RealROI

namespace RealROI

lemma amortRows_length (m r : ℚ) : ∀ (fuel : ℕ) (bal : ℚ) (i : ℕ),
    (amortRows m r bal i fuel).length = fuel := by
  intro fuel
  induction fuel with
  | zero => intro bal i; rfl
  | succ n ih => intro bal i; simp [amortRows, ih]

lemma one_sub_zpow_pos (r : ℚ) (hr : 0 < r) (n : ℕ) (hn : n ≠ 0) :
    0 < 1 - (1 + r) ^ (-(n : ℤ)) := by
  have h1 : (1:ℚ) < 1 + r := by linarith
  have hA : (1:ℚ) < (1 + r) ^ n := one_lt_pow₀ h1 hn
  have hz : (1 + r) ^ (-(n : ℤ)) = ((1 + r) ^ n)⁻¹ := by
    rw [zpow_neg, zpow_natCast]
  have hinv : ((1 + r) ^ n)⁻¹ < 1 := inv_lt_one_of_one_lt₀ hA
  rw [hz]; linarith

lemma monthlyRate_of_nonpos (rateAPR : ℚ) (h : rateAPR ≤ 0) :
    monthlyRate rateAPR = 1 / 10000000 := by
  have hr : rateAPR / 12 ≤ 0 := div_nonpos_of_nonpos_of_nonneg h (by norm_num)
  simp [monthlyRate, hr]

/-- C9: amortizationSchedule clamps every non-positive annual rate (zero or
negative) to a monthly rate of 1e-7, so for principal ≥ 0 and term > 0 the
payment denominator `1 - (1+r)^(-n)` is nonzero, the schedule of `termYears*12`
rows is produced without division by zero, and a negative rate yields exactly
the same result as rate 0. -/
theorem amortizationSchedule_clamp (loan rateAPR : ℚ) (termYears : ℕ)
    (hloan : 0 ≤ loan) (hterm : 0 < termYears) (hrate : rateAPR ≤ 0) :
    monthlyRate rateAPR = 1 / 10000000 ∧
    1 - (1 + monthlyRate rateAPR) ^ (-((termYears * 12 : ℕ) : ℤ)) ≠ 0 ∧
    (amortizationSchedule loan rateAPR termYears).rows.length = termYears * 12 ∧
    amortizationSchedule loan rateAPR termYears = amortizationSchedule loan 0 termYears := by
  have hm := monthlyRate_of_nonpos rateAPR hrate
  have hm0 : monthlyRate 0 = 1 / 10000000 := monthlyRate_of_nonpos 0 le_rfl
  have hpos : (0:ℚ) < monthlyRate rateAPR := by rw [hm]; norm_num
  have hne : (termYears * 12 : ℕ) ≠ 0 := by positivity
  refine ⟨hm, ?_, ?_, ?_⟩
  · exact (one_sub_zpow_pos _ hpos _ hne).ne'
  · simp [amortizationSchedule, amortRows_length]
  · simp [amortizationSchedule, hm, hm0]

theorem amortizationSchedule_clamp_witness :
    monthlyRate (-1) = 1 / 10000000 ∧
    1 - (1 + monthlyRate (-1)) ^ (-((1 * 12 : ℕ) : ℤ)) ≠ 0 ∧
    (amortizationSchedule 500 (-1) 1).rows.length = 1 * 12 ∧
    amortizationSchedule 500 (-1) 1 = amortizationSchedule 500 0 1 :=
  amortizationSchedule_clamp 500 (-1) 1 (by norm_num) (by norm_num) (by norm_num)

/-- C7: for nonzero index values, toReal satisfies the identity
`toReal(x, base, base) = x` and the composition
`toReal(toReal(x, a, b), b, c) = toReal(x, a, c)`, exactly over ℚ. -/
theorem toReal_identity_comp (x a b c base : ℚ)
    (hbase : base ≠ 0) (ha : a ≠ 0) (hb : b ≠ 0) (hc : c ≠ 0) :
    toReal x base base = x ∧ toReal (toReal x a b) b c = toReal x a c := by
  constructor
  · simp [toReal, div_self hbase]
  · simp only [toReal]
    field_simp

theorem toReal_identity_comp_witness :
    toReal 5 2 2 = 5 ∧ toReal (toReal 5 3 7) 7 11 = toReal 5 3 11 :=
  toReal_identity_comp 5 3 7 11 2 (by norm_num) (by norm_num) (by norm_num) (by norm_num)

/-- C6: whenever the requested window `min(rows.length, years*12)` is zero
months (in particular for years = 0 or an empty schedule), summarizeFinancials
returns zero cumulative principal, zero cumulative interest, and the first
row's balance (or 0 when the schedule is empty). -/
theorem summarizeFinancials_zero_window (rows : List AmortRow) (years : ℕ)
    (h : min rows.length (years * 12) = 0) :
    (summarizeFinancials rows years).principalPaid = 0 ∧
    (summarizeFinancials rows years).interestPaid = 0 ∧
    (summarizeFinancials rows years).balance = ((rows.head?).map AmortRow.balance).getD 0 := by
  cases rows with
  | nil => refine ⟨?_, ?_, ?_⟩ <;> simp [summarizeFinancials]
  | cons row rest =>
    have hy : years * 12 = 0 := by
      rcases Nat.min_eq_zero_iff.mp h with h0 | h0
      · exact absurd h0 (by simp)
      · exact h0
    refine ⟨?_, ?_, ?_⟩ <;> simp [summarizeFinancials, hy]

theorem summarizeFinancials_zero_window_witness :
    (summarizeFinancials [⟨1, 10, 2, 8, 92⟩] 0).principalPaid = 0 ∧
    (summarizeFinancials [⟨1, 10, 2, 8, 92⟩] 0).interestPaid = 0 ∧
    (summarizeFinancials [⟨1, 10, 2, 8, 92⟩] 0).balance =
      (([⟨1, 10, 2, 8, 92⟩] : List AmortRow).head?.map AmortRow.balance).getD 0 :=
  summarizeFinancials_zero_window [⟨1, 10, 2, 8, 92⟩] 0 (by simp)

lemma irrBisectionLoop_some (cashflows : List ℚ) (tol : ℚ) :
    ∀ (fuel : ℕ) (low high fLow fHigh r : ℚ),
      irrBisectionLoop cashflows tol fuel low high fLow fHigh = some r →
      |npv r cashflows| < tol := by
  intro fuel
  induction fuel with
  | zero => intro low high fLow fHigh r h; simp [irrBisectionLoop] at h
  | succ n ih =>
    intro low high fLow fHigh r h
    rw [irrBisectionLoop] at h
    split at h
    · rename_i habs
      rw [Option.some.injEq] at h
      rw [h] at habs
      exact habs
    · split at h
      · exact ih _ _ _ _ _ h
      · exact ih _ _ _ _ _ h

/-- C4: if the NPVs at the bracket ends have the same sign (positive product),
irrBisection returns none (no solution); and whenever it returns a rate —
which only happens through the tolerance exit — the NPV at that rate has
absolute value below the tolerance. -/
theorem irrBisection_no_sign_change_and_tol (cashflows : List ℚ)
    (low high tol : ℚ) (maxIter : ℕ) :
    (0 < npv low cashflows * npv high cashflows →
      irrBisection cashflows low high tol maxIter = none) ∧
    (∀ r, irrBisection cashflows low high tol maxIter = some r →
      |npv r cashflows| < tol) := by
  constructor
  · intro hsign
    rw [irrBisection]
    simp only [if_pos hsign]
  · intro r h
    rw [irrBisection] at h
    split at h
    · exact absurd h (by simp)
    · exact irrBisectionLoop_some cashflows tol maxIter _ _ _ _ r h

theorem irrBisection_no_sign_change_and_tol_witness :
    irrBisection [1, 1] (-9/10) 5 (1/100000000) 10000 = none ∧
    |npv (41/20) [-1, 2]| < 1/2 :=
  ⟨(irrBisection_no_sign_change_and_tol [1, 1] (-9/10) 5 (1/100000000) 10000).1
      (by norm_num [npv, List.enum, List.enumFrom]),
   (irrBisection_no_sign_change_and_tol [-1, 2] (-9/10) 5 (1/2) 3).2 (41/20)
      (by norm_num [irrBisection, irrBisectionLoop, npv, List.enum, List.enumFrom, abs_lt])⟩

end RealROI

namespace RealROI

lemma balAfter_step (m r bal : ℚ) :
    ∀ k, balAfter m r (bal * (1 + r) - m) k = balAfter m r bal (k + 1) := by
  intro k
  induction k with
  | zero => rfl
  | succ n ih => rw [balAfter, ih]; rfl

lemma amortRows_map_principal_sum (m r : ℚ) : ∀ (k : ℕ) (bal : ℚ) (i : ℕ),
    ((amortRows m r bal i k).map AmortRow.principal).sum = bal - balAfter m r bal k := by
  intro k
  induction k with
  | zero => intro bal i; simp [amortRows, balAfter]
  | succ n ih =>
    intro bal i
    simp only [amortRows, List.map_cons, List.sum_cons]
    rw [ih]
    have hb : bal - (m - bal * r) = bal * (1 + r) - m := by ring
    rw [hb, balAfter_step]
    have hu : balAfter m r bal (n + 1) = balAfter m r bal n * (1 + r) - m := rfl
    ring

lemma balAfter_closed (m r bal : ℚ) (hr : r ≠ 0) : ∀ k : ℕ,
    balAfter m r bal k = bal * (1 + r) ^ k - m * ((1 + r) ^ k - 1) / r := by
  intro k
  induction k with
  | zero => simp [balAfter]
  | succ n ih =>
    rw [balAfter, ih, pow_succ]
    field_simp
    ring

lemma balAfter_payment_final (loan r : ℚ) (hr : 0 < r) (n : ℕ) (hn : n ≠ 0) :
    balAfter ((loan * r) / (1 - (1 + r) ^ (-(n : ℤ)))) r loan n = 0 := by
  have h1 : (1:ℚ) < 1 + r := by linarith
  have hA : (1:ℚ) < (1 + r) ^ n := one_lt_pow₀ h1 hn
  have hA0 : ((1:ℚ) + r) ^ n ≠ 0 := by positivity
  have hz : (1 + r) ^ (-(n : ℤ)) = ((1 + r) ^ n)⁻¹ := by rw [zpow_neg, zpow_natCast]
  have hinv : ((1 + r) ^ n)⁻¹ < 1 := inv_lt_one_of_one_lt₀ hA
  have hden : 1 - ((1 + r) ^ n)⁻¹ ≠ 0 := by linarith
  have hA1 : ((1:ℚ) + r) ^ n - 1 ≠ 0 := sub_ne_zero.mpr (ne_of_gt hA)
  have hd2 : 1 - ((1 + r) ^ n)⁻¹ = ((1 + r) ^ n - 1) / (1 + r) ^ n := by
    field_simp
  rw [balAfter_closed _ _ _ hr.ne', hz, hd2, div_div_eq_mul_div]
  field_simp
  ring

lemma monthlyRate_pos (rateAPR : ℚ) : 0 < monthlyRate rateAPR := by
  simp only [monthlyRate]
  split
  · norm_num
  · rename_i h
    push_neg at h
    exact h

lemma amortizationSchedule_rows (loan rateAPR : ℚ) (termYears : ℕ) :
    (amortizationSchedule loan rateAPR termYears).rows =
      amortRows
        ((loan * monthlyRate rateAPR) /
          (1 - (1 + monthlyRate rateAPR) ^ (-((termYears * 12 : ℕ) : ℤ))))
        (monthlyRate rateAPR) loan 1 (termYears * 12) := rfl

/-- C1: for every positive principal, positive annual rate and positive term,
the sum of the `principal` field over all rows of the amortization schedule
equals the loan principal, exactly in rational arithmetic. -/
theorem amortizationSchedule_principal_sum (loan rateAPR : ℚ) (termYears : ℕ)
    (hloan : 0 < loan) (hrate : 0 < rateAPR) (hterm : 0 < termYears) :
    (((amortizationSchedule loan rateAPR termYears).rows).map AmortRow.principal).sum = loan := by
  have hr : 0 < monthlyRate rateAPR := monthlyRate_pos rateAPR
  have hn : (termYears * 12 : ℕ) ≠ 0 := by positivity
  rw [amortizationSchedule_rows, amortRows_map_principal_sum,
    balAfter_payment_final loan (monthlyRate rateAPR) hr _ hn]
  ring

theorem amortizationSchedule_principal_sum_witness :
    (((amortizationSchedule 1000 (6/5) 1).rows).map AmortRow.principal).sum = 1000 :=
  amortizationSchedule_principal_sum 1000 (6/5) 1 (by norm_num) (by norm_num) (by norm_num)

lemma amortRows_getD (m r : ℚ) : ∀ (k : ℕ) (bal : ℚ) (i j : ℕ), j < k →
    (amortRows m r bal i k).getD j zeroRow =
      ⟨i + j, m, balAfter m r bal j * r, m - balAfter m r bal j * r,
        max 0 (balAfter m r bal (j + 1))⟩ := by
  intro k
  induction k with
  | zero => intro bal i j hj; exact absurd hj (by omega)
  | succ n ih =>
    intro bal i j hj
    cases j with
    | zero =>
      simp only [amortRows, List.getD_cons_zero]
      have hb : bal - (m - bal * r) = balAfter m r bal 1 := by
        rw [balAfter, balAfter]; ring
      rw [hb]
      simp [balAfter]
    | succ jj =>
      have hb : bal - (m - bal * r) = bal * (1 + r) - m := by ring
      simp only [amortRows, List.getD_cons_succ]
      rw [hb, ih _ _ jj (by omega), balAfter_step, balAfter_step]
      simp only [AmortRow.mk.injEq]
      exact ⟨by omega, trivial, trivial, trivial, trivial⟩

lemma balAfter_antitone (m r loan : ℚ) (hr : 0 < r) (hm : loan * r ≤ m) :
    ∀ k, balAfter m r loan (k + 1) ≤ balAfter m r loan k ∧ balAfter m r loan k ≤ loan := by
  intro k
  induction k with
  | zero =>
    constructor
    · have h1 : balAfter m r loan 1 = loan * (1 + r) - m := by rw [balAfter, balAfter]
      rw [h1, balAfter]
      nlinarith
    · rw [balAfter]
  | succ n ih =>
    have h1 : balAfter m r loan (n + 1) ≤ loan := le_trans ih.1 ih.2
    have h2 : balAfter m r loan (n + 1) * r ≤ loan * r :=
      mul_le_mul_of_nonneg_right h1 hr.le
    constructor
    · have hu : balAfter m r loan (n + 1 + 1) = balAfter m r loan (n + 1) * (1 + r) - m := rfl
      rw [hu]
      nlinarith
    · exact h1

lemma payment_ge (loan r : ℚ) (hloan : 0 ≤ loan) (hr : 0 < r) (n : ℕ) (hn : n ≠ 0) :
    loan * r ≤ (loan * r) / (1 - (1 + r) ^ (-(n : ℤ))) := by
  have h1 : (1:ℚ) < 1 + r := by linarith
  have hA : (1:ℚ) < (1 + r) ^ n := one_lt_pow₀ h1 hn
  have hz : (1 + r) ^ (-(n : ℤ)) = ((1 + r) ^ n)⁻¹ := by rw [zpow_neg, zpow_natCast]
  have hinvpos : (0:ℚ) < ((1 + r) ^ n)⁻¹ := by positivity
  have hinvlt : ((1 + r) ^ n)⁻¹ < 1 := inv_lt_one_of_one_lt₀ hA
  rw [hz]
  have hD : (0:ℚ) < 1 - ((1 + r) ^ n)⁻¹ := by linarith
  rw [le_div_iff hD]
  have hnn : 0 ≤ loan * r := mul_nonneg hloan hr.le
  nlinarith

/-- C2: for every positive principal, positive annual rate and positive term,
the `balance` field of the schedule rows is non-increasing from row to row,
never negative, and exactly 0 at the final row. -/
theorem amortizationSchedule_balance_invariant (loan rateAPR : ℚ) (termYears : ℕ)
    (hloan : 0 < loan) (hrate : 0 < rateAPR) (hterm : 0 < termYears) :
    (∀ j, j + 1 < (amortizationSchedule loan rateAPR termYears).rows.length →
      ((amortizationSchedule loan rateAPR termYears).rows.getD (j + 1) zeroRow).balance ≤
        ((amortizationSchedule loan rateAPR termYears).rows.getD j zeroRow).balance) ∧
    (∀ j, 0 ≤ ((amortizationSchedule loan rateAPR termYears).rows.getD j zeroRow).balance) ∧
    ((amortizationSchedule loan rateAPR termYears).rows.getD
        ((amortizationSchedule loan rateAPR termYears).rows.length - 1) zeroRow).balance = 0 := by
  have hr : 0 < monthlyRate rateAPR := monthlyRate_pos rateAPR
  have hn : (termYears * 12 : ℕ) ≠ 0 := by positivity
  rw [amortizationSchedule_rows]
  set r := monthlyRate rateAPR with hrdef
  set n := termYears * 12 with hndef
  set m := (loan * r) / (1 - (1 + r) ^ (-(n : ℤ))) with hmdef
  have hlen : (amortRows m r loan 1 n).length = n := amortRows_length m r n loan 1
  have hm : loan * r ≤ m := payment_ge loan r hloan.le hr n hn
  have hmono := balAfter_antitone m r loan hr hm
  refine ⟨?_, ?_, ?_⟩
  · intro j hj
    rw [hlen] at hj
    rw [amortRows_getD m r n loan 1 (j + 1) (by omega),
      amortRows_getD m r n loan 1 j (by omega)]
    exact max_le_max le_rfl (hmono (j + 1)).1
  · intro j
    by_cases hj : j < n
    · rw [amortRows_getD m r n loan 1 j hj]
      exact le_max_left 0 _
    · rw [List.getD_eq_default _ _ (by rw [hlen]; omega)]
      norm_num [zeroRow]
  · rw [hlen, amortRows_getD m r n loan 1 (n - 1) (by omega)]
    have hfin : balAfter m r loan n = 0 := balAfter_payment_final loan r hr n hn
    have hidx : n - 1 + 1 = n := by omega
    rw [hidx, hfin]
    simp

theorem amortizationSchedule_balance_invariant_witness :
    (((amortizationSchedule 1000 (6/5) 1).rows.getD 1 zeroRow).balance ≤
      ((amortizationSchedule 1000 (6/5) 1).rows.getD 0 zeroRow).balance) ∧
    (0 ≤ ((amortizationSchedule 1000 (6/5) 1).rows.getD 5 zeroRow).balance) ∧
    ((amortizationSchedule 1000 (6/5) 1).rows.getD
        ((amortizationSchedule 1000 (6/5) 1).rows.length - 1) zeroRow).balance = 0 := by
  have h := amortizationSchedule_balance_invariant 1000 (6/5) 1
    (by norm_num) (by norm_num) (by norm_num)
  refine ⟨h.1 0 ?_, h.2.1 5, h.2.2⟩
  rw [amortizationSchedule_rows, amortRows_length]
  norm_num

end RealROI

namespace RealROI

lemma realEquityCurveAux_length (feeMo : ℚ) (dividends cpiGrowth : List ℚ) :
    ∀ (rs : List ℚ) (prev : ℚ) (t : ℕ),
      (realEquityCurveAux feeMo dividends cpiGrowth prev t rs).length = rs.length := by
  intro rs
  induction rs with
  | nil => intro prev t; rfl
  | cons ret rest ih => intro prev t; simp [realEquityCurveAux, ih]

lemma realEquityCurveAux_adjacent (feeMo : ℚ) (dividends cpiGrowth : List ℚ) :
    ∀ (rs : List ℚ) (prev : ℚ) (t0 i : ℕ), i < rs.length →
      (prev :: realEquityCurveAux feeMo dividends cpiGrowth prev t0 rs).getD (i + 1) 0 =
        (prev :: realEquityCurveAux feeMo dividends cpiGrowth prev t0 rs).getD i 0 *
          (((1 + (rs.getD i 0 + dividends.getD (t0 + i) 0)) * (1 - feeMo)) /
            (1 + cpiGrowth.getD (t0 + i) 0)) := by
  intro rs
  induction rs with
  | nil => intro prev t0 i hi; exact absurd hi (by simp)
  | cons ret rest ih =>
    intro prev t0 i hi
    cases i with
    | zero =>
      simp [realEquityCurveAux]
    | succ ii =>
      have harith : t0 + (ii + 1) = t0 + 1 + ii := by omega
      simp only [realEquityCurveAux, List.getD_cons_succ, List.getD_cons_zero, harith]
      exact ih _ (t0 + 1) ii (by simpa using hi)

/-- C5: for equal-length return, dividend and CPI-growth series, realEquityCurve
starts at 1 and each successive element is the previous one times
`(1 + returns[t] + dividends[t]) * (1 - (feeBpsPerYear/10000)/12) / (1 + cpiGrowth[t])`. -/
theorem realEquityCurve_growth_factor (returns dividends cpiGrowth : List ℚ)
    (feeBpsPerYear : ℚ)
    (hd : dividends.length = returns.length) (hc : cpiGrowth.length = returns.length) :
    (realEquityCurve returns dividends cpiGrowth feeBpsPerYear).length = returns.length + 1 ∧
    (realEquityCurve returns dividends cpiGrowth feeBpsPerYear).getD 0 0 = 1 ∧
    ∀ t, t < returns.length →
      (realEquityCurve returns dividends cpiGrowth feeBpsPerYear).getD (t + 1) 0 =
        (realEquityCurve returns dividends cpiGrowth feeBpsPerYear).getD t 0 *
          ((1 + returns.getD t 0 + dividends.getD t 0) *
            (1 - (feeBpsPerYear / 10000) / 12) / (1 + cpiGrowth.getD t 0)) := by
  refine ⟨?_, rfl, ?_⟩
  · simp [realEquityCurve, realEquityCurveAux_length]
  · intro t ht
    have h := realEquityCurveAux_adjacent ((feeBpsPerYear / 10000) / 12)
      dividends cpiGrowth returns 1 0 t ht
    simp only [Nat.zero_add] at h
    rw [realEquityCurve]
    rw [h]
    ring

theorem realEquityCurve_growth_factor_witness :
    (realEquityCurve [1/10] [1/50] [1/100] 120).length = 1 + 1 ∧
    (realEquityCurve [1/10] [1/50] [1/100] 120).getD 0 0 = 1 ∧
    (realEquityCurve [1/10] [1/50] [1/100] 120).getD 1 0 =
      (realEquityCurve [1/10] [1/50] [1/100] 120).getD 0 0 *
        ((1 + ([1/10] : List ℚ).getD 0 0 + ([1/50] : List ℚ).getD 0 0) *
          (1 - ((120:ℚ) / 10000) / 12) / (1 + ([1/100] : List ℚ).getD 0 0)) := by
  have h := realEquityCurve_growth_factor [1/10] [1/50] [1/100] 120 rfl rfl
  exact ⟨by simpa using h.1, h.2.1, h.2.2 0 (by norm_num)⟩

lemma twAux_eq_sum (curve : List ℚ) (T : ℕ) :
    ∀ (cfs : List ℚ) (t0 : ℕ),
      twAux curve T cfs t0 =
        ∑ i in Finset.range cfs.length,
          (if curve.length ≤ t0 + i then 0
           else cfs.getD i 0 * (curve.getD T 0 / curve.getD (t0 + i) 0)) := by
  intro cfs
  induction cfs with
  | nil => intro t0; simp [twAux]
  | cons cf rest ih =>
    intro t0
    rw [twAux, ih (t0 + 1)]
    rw [List.length_cons, Finset.sum_range_succ']
    have hcong : ∀ i ∈ Finset.range rest.length,
        (if curve.length ≤ t0 + (i + 1) then (0:ℚ)
         else (cf :: rest).getD (i + 1) 0 * (curve.getD T 0 / curve.getD (t0 + (i + 1)) 0)) =
          (if curve.length ≤ t0 + 1 + i then 0
           else rest.getD i 0 * (curve.getD T 0 / curve.getD (t0 + 1 + i) 0)) := by
      intro i hi
      have harith : t0 + (i + 1) = t0 + 1 + i := by omega
      rw [harith, List.getD_cons_succ]
    rw [Finset.sum_congr rfl hcong]
    simp only [Nat.add_zero, List.getD_cons_zero]
    ring

lemma sum_range_ite_min (n m : ℕ) (f : ℕ → ℚ) :
    (∑ i in Finset.range n, if m ≤ i then 0 else f i) =
      ∑ i in Finset.range (min n m), f i := by
  have hsub : Finset.range (min n m) ⊆ Finset.range n :=
    Finset.range_subset.mpr (min_le_left n m)
  have hzero : ∀ x ∈ Finset.range n, x ∉ Finset.range (min n m) →
      (if m ≤ x then (0:ℚ) else f x) = 0 := by
    intro x hx hnx
    rw [Finset.mem_range] at hx
    rw [Finset.mem_range, not_lt] at hnx
    have hmx : m ≤ x := by omega
    rw [if_pos hmx]
  rw [← Finset.sum_subset hsub hzero]
  refine Finset.sum_congr rfl ?_
  intro x hx
  rw [Finset.mem_range] at hx
  rw [if_neg (by omega)]

/-- C10: terminalWealthFromCashFlows silently ignores every cash-flow entry with
index at or past the curve's length: for every curve and cash-flow sequence the
result is the sum over only indices `t < curve.length` (and `t` within the
cash-flow list) of `cashFlowsReal[t] * curve[last] / curve[t]`. -/
theorem terminalWealth_skips_out_of_range (curve cashFlowsReal : List ℚ) :
    terminalWealthFromCashFlows curve cashFlowsReal =
      ∑ t in Finset.range (min cashFlowsReal.length curve.length),
        cashFlowsReal.getD t 0 * (curve.getD (curve.length - 1) 0 / curve.getD t 0) := by
  rw [terminalWealthFromCashFlows]
  split
  · rename_i h
    rw [h]
    simp
  · rw [twAux_eq_sum]
    simp only [Nat.zero_add]
    exact sum_range_ite_min _ _ _

end RealROI

namespace RealROI

lemma all_zero_getD : ∀ (l : List ℚ), (∀ x ∈ l, x = 0) → ∀ t, l.getD t 0 = 0 := by
  intro l
  induction l with
  | nil => intro h t; simp
  | cons a rest ih =>
    intro h t
    cases t with
    | zero => simpa using h a (by simp)
    | succ tt =>
      rw [List.getD_cons_succ]
      exact ih (fun x hx => h x (by simp [hx])) tt

lemma all_one_getD : ∀ (l : List ℚ), (∀ x ∈ l, x = 1) → ∀ t, t < l.length → l.getD t 0 = 1 := by
  intro l
  induction l with
  | nil => intro h t ht; exact absurd ht (by simp)
  | cons a rest ih =>
    intro h t ht
    cases t with
    | zero => simpa using h a (by simp)
    | succ tt =>
      rw [List.getD_cons_succ]
      exact ih (fun x hx => h x (by simp [hx])) tt (by simpa using ht)

lemma realEquityCurveAux_all_one (dividends cpiGrowth : List ℚ)
    (hd : ∀ x ∈ dividends, x = 0) (hc : ∀ x ∈ cpiGrowth, x = 0)
    (feeMo : ℚ) (hf : feeMo = 0) :
    ∀ (rs : List ℚ), (∀ x ∈ rs, x = 0) → ∀ (prev : ℚ), prev = 1 → ∀ (t : ℕ),
      ∀ x ∈ realEquityCurveAux feeMo dividends cpiGrowth prev t rs, x = 1 := by
  intro rs
  induction rs with
  | nil => intro _ prev _ t x hx; simp [realEquityCurveAux] at hx
  | cons ret rest ih =>
    intro hr prev hprev t x hx
    have h0 : ret = 0 := hr ret (by simp)
    have hrest : ∀ y ∈ rest, y = 0 := fun y hy => hr y (by simp [hy])
    have hg : prev * (((1 + (ret + dividends.getD t 0)) * (1 - feeMo)) /
        (1 + cpiGrowth.getD t 0)) = 1 := by
      rw [h0, hprev, hf, all_zero_getD dividends hd, all_zero_getD cpiGrowth hc]
      norm_num
    simp only [realEquityCurveAux, List.mem_cons] at hx
    rcases hx with h | h
    · rw [h, hg]
    · exact ih hrest _ hg (t + 1) x h

lemma twAux_all_one (curve : List ℚ) (h1 : ∀ x ∈ curve, x = 1)
    (T : ℕ) (hT : T < curve.length) :
    ∀ (cfs : List ℚ) (t0 : ℕ), t0 + cfs.length ≤ curve.length →
      twAux curve T cfs t0 = cfs.sum := by
  intro cfs
  induction cfs with
  | nil => intro t0 h; simp [twAux]
  | cons cf rest ih =>
    intro t0 h
    rw [twAux]
    have ht0 : t0 < curve.length := by
      simp only [List.length_cons] at h
      omega
    rw [if_neg (by omega), all_one_getD curve h1 T hT, all_one_getD curve h1 t0 ht0]
    rw [ih (t0 + 1) (by simp only [List.length_cons] at h; omega)]
    simp

/-- C8 as stated is false: with zero returns and dividends but nonzero CPI
growth, the curve deflates by inflation, so terminal wealth is below the sum of
contributions.  One period of 100% inflation halves the single unit
contribution. -/
theorem terminalWealth_zero_returns_counterexample :
    terminalWealthFromCashFlows (realEquityCurve [0] [0] [1] 0) [1] ≠
      ([1] : List ℚ).sum := by
  norm_num [terminalWealthFromCashFlows, realEquityCurve, realEquityCurveAux, twAux, List.getD]

/-- C8 (amended): with zero fee and every per-period return, dividend and
CPI-growth entry equal to zero, terminal wealth over the realEquityCurve equals
the plain sum of the contributions, for every contribution sequence no longer
than the curve. -/
theorem terminalWealth_flat_zero_growth (returns dividends cpiGrowth cfs : List ℚ)
    (hr : ∀ x ∈ returns, x = 0) (hd : ∀ x ∈ dividends, x = 0)
    (hc : ∀ x ∈ cpiGrowth, x = 0)
    (hlen : cfs.length ≤ (realEquityCurve returns dividends cpiGrowth 0).length) :
    terminalWealthFromCashFlows (realEquityCurve returns dividends cpiGrowth 0) cfs =
      cfs.sum := by
  have hone : ∀ x ∈ realEquityCurve returns dividends cpiGrowth 0, x = 1 := by
    intro x hx
    simp only [realEquityCurve, List.mem_cons] at hx
    rcases hx with h | h
    · exact h
    · exact realEquityCurveAux_all_one dividends cpiGrowth hd hc _ (by norm_num)
        returns hr 1 rfl 0 x h
  have hlen0 : (realEquityCurve returns dividends cpiGrowth 0).length ≠ 0 := by
    simp [realEquityCurve]
  rw [terminalWealthFromCashFlows, if_neg hlen0]
  have hpos : 0 < (realEquityCurve returns dividends cpiGrowth 0).length :=
    Nat.pos_of_ne_zero hlen0
  exact twAux_all_one _ hone _ (by omega) cfs 0 (by omega)

theorem terminalWealth_flat_zero_growth_witness :
    terminalWealthFromCashFlows (realEquityCurve [0, 0] [0, 0] [0, 0] 0) [5, 7] = 12 := by
  have h := terminalWealth_flat_zero_growth [0, 0] [0, 0] [0, 0] [5, 7]
    (by simp) (by simp) (by simp)
    (by simp [realEquityCurve, realEquityCurveAux_length])
  rw [h]
  norm_num

end RealROI

namespace RealROI

lemma foldl_add_range (f : ℕ → ℚ) : ∀ n : ℕ,
    (List.range n).foldl (fun acc y => acc + f y) 0 = ∑ y in Finset.range n, f y := by
  intro n
  induction n with
  | zero => rfl
  | succ k ih =>
    rw [List.range_succ, List.foldl_append, ih, Finset.sum_range_succ]
    rfl

lemma monthlyRealCashFlowsAux_getD (cpiSeries : List ℚ) (cpiBase : ℚ) :
    ∀ (cfs : List ℚ) (t0 i : ℕ), i < cfs.length →
      (monthlyRealCashFlowsAux cpiSeries cpiBase cfs t0).getD i 0 =
        toReal (cfs.getD i 0) cpiBase
          (if cpiSeries.getD (t0 + i) 0 = 0 then cpiSeries.getD (cpiSeries.length - 1) 0
           else cpiSeries.getD (t0 + i) 0) := by
  intro cfs
  induction cfs with
  | nil => intro t0 i hi; exact absurd hi (by simp)
  | cons cf rest ih =>
    intro t0 i hi
    cases i with
    | zero => simp [monthlyRealCashFlowsAux]
    | succ ii =>
      have harith : t0 + (ii + 1) = t0 + 1 + ii := by omega
      simp only [monthlyRealCashFlowsAux, List.getD_cons_succ, harith]
      exact ih (t0 + 1) ii (by simpa using hi)

/-- C3 as stated is false for the App.jsx variant: with two years of nominal
cash flow 100 under CPI 110 at the end of year 1 and 121 at the end of year 2
(base 100), the pipeline's `totalRealROI` is `200 * (100/121) = 20000/121`,
while deflating each year's flow by its own period CPI before summing gives
`100 * (100/110) + 100 * (100/121) = 21000/121`. -/
theorem totalRealROIJsx_endpoint_counterexample :
    totalRealROIJsx 0 0 [100, 100] 0 100 121 ≠
      perPeriodRealSum [(100, 110), (100, 121)] 100 := by
  norm_num [totalRealROIJsx, perPeriodRealSum, toReal]

/-- C3 (amended): per-period deflation holds only for parts of the pipeline.
App.jsx's totalRealROI sums the nominal components first and deflates the total
once at the endpoint CPI; the per-year flows of App.tsx's realCashFlow and the
monthly IRR input series of App.jsx are each deflated by their own period's CPI
via toReal before being summed. -/
theorem realROI_deflation_structure
    (appreciation principalPaid totalTaxSavings cpiBase cpiTimelineEnd : ℚ)
    (nominalYearlyCashFlows ledgerCashFlows cpiSeries monthlyCashFlows : List ℚ)
    (timelineYears : ℕ)
    (hcpi : ∀ y, y < timelineYears → cpiSeries.getD ((y + 1) * 12 - 1) 0 ≠ 0) :
    totalRealROIJsx appreciation principalPaid nominalYearlyCashFlows totalTaxSavings
        cpiBase cpiTimelineEnd =
      toReal (appreciation + principalPaid + nominalYearlyCashFlows.sum + totalTaxSavings)
        cpiBase cpiTimelineEnd ∧
    realCashFlowTsx ledgerCashFlows cpiSeries cpiBase cpiTimelineEnd timelineYears =
      ∑ y in Finset.range timelineYears,
        toReal (ledgerCashFlows.getD y 0) cpiBase (cpiSeries.getD ((y + 1) * 12 - 1) 0) ∧
    ∀ i, i < monthlyCashFlows.length → cpiSeries.getD i 0 ≠ 0 →
      (monthlyRealCashFlows monthlyCashFlows cpiSeries cpiBase).getD i 0 =
        toReal (monthlyCashFlows.getD i 0) cpiBase (cpiSeries.getD i 0) := by
  refine ⟨rfl, ?_, ?_⟩
  · rw [realCashFlowTsx, foldl_add_range]
    refine Finset.sum_congr rfl ?_
    intro y hy
    rw [Finset.mem_range] at hy
    rw [if_neg (hcpi y hy)]
    rfl
  · intro i hi hcpi_i
    rw [monthlyRealCashFlows, monthlyRealCashFlowsAux_getD cpiSeries cpiBase
      monthlyCashFlows 0 i hi]
    simp only [Nat.zero_add]
    rw [if_neg hcpi_i]

theorem realROI_deflation_structure_witness :
    totalRealROIJsx 1 2 [3] 4 100 110 =
      toReal (1 + 2 + ([3] : List ℚ).sum + 4) 100 110 ∧
    realCashFlowTsx [3] [1, 1, 1, 1, 1, 1, 1, 1, 1, 1, 1, 2] 100 110 1 =
      ∑ y in Finset.range 1,
        toReal (([3] : List ℚ).getD y 0) 100
          (([1, 1, 1, 1, 1, 1, 1, 1, 1, 1, 1, 2] : List ℚ).getD ((y + 1) * 12 - 1) 0) ∧
    (monthlyRealCashFlows [3] [1, 1, 1, 1, 1, 1, 1, 1, 1, 1, 1, 2] 100).getD 0 0 =
      toReal (([3] : List ℚ).getD 0 0) 100
        (([1, 1, 1, 1, 1, 1, 1, 1, 1, 1, 1, 2] : List ℚ).getD 0 0) := by
  have h := realROI_deflation_structure 1 2 4 100 110 [3] [3]
    [1, 1, 1, 1, 1, 1, 1, 1, 1, 1, 1, 2] [3] 1 ?_
  · exact ⟨h.1, h.2.1, h.2.2 0 (by norm_num) (by norm_num [List.getD])⟩
  · intro y hy
    have hy0 : y = 0 := by omega
    subst hy0
    norm_num [List.getD]

end RealROI
